import Mathlib

/-!
Verification of the density-to-structure fitting core of the LiGAN repository
(`generate.py`): the beam-search atom fitter (`AtomFitter.fit`), the atom
detector (`AtomFitter.detect_atoms`), the gradient refiner (`AtomFitter.fit_gd`)
and the assignment-based RMSD matcher (`get_min_rmsd`).

Real-valued tensor entries are modelled as rationals: the operations the code
performs on them (addition, subtraction, multiplication, absolute value,
squaring, order comparisons) are exact over `ℚ`.  External library calls
(torch convolution, the molgrid atom-to-density renderer, the Adam optimizer
step, scipy's linear_sum_assignment) are modelled either as explicit function
parameters, or, where the spec fixes their meaning, by definitions whose doc
comment starts with "Modelled from the spec".
-/

namespace LiGAN

/-- A spatial coordinate (x, y, z), one row of the N×3 coordinate tensors. -/
abbrev Point : Type := ℚ × ℚ × ℚ

/-- Squared Euclidean distance between two points, as computed by
`((a - b)**2).sum()` in `detect_atoms` and `get_min_rmsd`. -/
def sqDist (p q : Point) : ℚ :=
  (p.1 - q.1) * (p.1 - q.1) + (p.2.1 - q.2.1) * (p.2.1 - q.2.1)
    + (p.2.2 - q.2.2) * (p.2.2 - q.2.2)

/-- `v.abs().sum()`: the L1 magnitude of a flattened grid. -/
def l1Loss (v : List ℚ) : ℚ := (v.map fun x => |x|).sum

/-- `(v**2).sum() / 2.0`: the configured L2-type loss of a flattened grid. -/
def l2Loss (v : List ℚ) : ℚ := (v.map fun x => x ^ 2).sum / 2

/-- The elementwise loss of `fit_gd`:
`grid_diff.abs().sum()` if `fit_L1_loss` else `(grid_diff**2).sum() / 2.0`. -/
def gdLoss (fitL1 : Bool) (diff : List ℚ) : ℚ :=
  if fitL1 then l1Loss diff else l2Loss diff

/-- The fit loss `fit` assigns to the initial empty structure
(`generate.py` lines 396-400): `grid_true.values.abs().sum()` when
`fit_L1_loss` is set, `(grid_true.values**2).sum() / 2.0` otherwise. -/
def initFitLoss (fitL1 : Bool) (values : List ℚ) : ℚ :=
  if fitL1 then l1Loss values else l2Loss values

/-- `grid_diff = grid.values - grid_pred`, elementwise on flattened grids. -/
def residual (target pred : List ℚ) : List ℚ :=
  target.zipWith (fun a b => a - b) pred

/-- The objective attached to a candidate structure: a bare fit loss, or,
when `constrain_types` is set, the pair (type-count loss, fit loss) compared
lexicographically (`generate.py` lines 402-407). -/
inductive FitObjective
  | scalar (fitLoss : ℚ)
  | pair (typeLoss fitLoss : ℚ)
deriving DecidableEq

/-- The objective of the initial empty structure (`generate.py` lines 396-407):
`type_loss = types.abs().sum()`; objective is `(type_loss, fit_loss)` when
`constrain_types` is set and `fit_loss` alone otherwise. -/
def initObjective (constrainTypes fitL1 : Bool) (values types : List ℚ) : FitObjective :=
  if constrainTypes then .pair (l1Loss types) (initFitLoss fitL1 values)
  else .scalar (initFitLoss fitL1 values)

/-- Modelled from the spec: the atom-to-density projection used everywhere in
the fitter (`self.c2grid`, an external molgrid library call, absent from the
repository source).  Per the spec, atom density is additive and each atom
contributes some per-voxel density, so rendering a structure sums a per-atom
contribution `contrib` over the structure's atoms at every voxel; in
particular the empty structure renders to the all-zero grid. -/
def renderGrid (contrib : Point × ℕ → ℕ → ℚ) (atoms : List (Point × ℕ))
    (nvox : ℕ) : List ℚ :=
  (List.range nvox).map fun v => (atoms.map fun a => contrib a v).sum

/-- The loop body of `AtomFitter.fit_gd`, with the number of REMAINING
optimizer steps as the first argument.  Each iteration renders the current
coordinates, forms the residual against the target and its loss; with steps
remaining it applies one optimizer update (`loss.backward(); solver.step()`,
an external torch autodiff/Adam call, modelled as the state-threading oracle
`stepFn`), and at `i == n_iters` it breaks, returning the values computed at
the final coordinates. -/
def fitGDAux {σ β : Type} (stepFn : σ → β → σ × β) (render : β → List ℚ)
    (fitL1 : Bool) (target : List ℚ) : ℕ → σ → β → β × List ℚ × List ℚ × ℚ
  | 0, _, xyz =>
    let pred := render xyz
    let diff := residual target pred
    (xyz, pred, diff, gdLoss fitL1 diff)
  | k + 1, s, xyz =>
    let st := stepFn s xyz
    fitGDAux stepFn render fitL1 target k st.1 st.2

/-- `AtomFitter.fit_gd(grid, xyz, c, n_iters)`: runs the refinement loop for
exactly `nIters` optimizer steps and returns
`(xyz, grid_pred, grid_diff, loss)` evaluated at the final coordinates. -/
def fitGD {σ β : Type} (stepFn : σ → β → σ × β) (render : β → List ℚ)
    (fitL1 : Bool) (target : List ℚ) (s0 : σ) (xyz0 : β) (nIters : ℕ) :
    β × List ℚ × List ℚ × ℚ :=
  fitGDAux stepFn render fitL1 target nIters s0 xyz0

/-- One member of the beam pool `best_structs`: its objective, its unique
`struct_count` id, and the atom count of its structure (`xyz.shape[0]`).
The full tuples also carry the coordinate/type tensors and the frontier, which
the pool ordering never consults (ids are unique, so tuple comparison stops
at the id). -/
structure PoolCand where
  obj : ℚ
  id : ℕ
  nAtoms : ℕ
deriving DecidableEq

/-- The order `sorted(best_structs + new_best_structs)` sorts by: python
tuples compare lexicographically, so by objective first, then by the unique
`struct_count` id (the tensor components are never reached). -/
def poolLe (a b : PoolCand) : Prop :=
  a.obj < b.obj ∨ (a.obj = b.obj ∧ a.id ≤ b.id)

instance : DecidableRel poolLe := fun a b =>
  inferInstanceAs (Decidable (a.obj < b.obj ∨ (a.obj = b.obj ∧ a.id ≤ b.id)))

instance : IsTotal PoolCand poolLe where
  total a b := by
    rcases lt_trichotomy a.obj b.obj with h | h | h
    · exact Or.inl (Or.inl h)
    · rcases Nat.le_total a.id b.id with h2 | h2
      · exact Or.inl (Or.inr ⟨h, h2⟩)
      · exact Or.inr (Or.inr ⟨h.symm, h2⟩)
    · exact Or.inr (Or.inl h)

instance : IsTrans PoolCand poolLe where
  trans a b c hab hbc := by
    rcases hab with hab | ⟨hab, hab2⟩
    · rcases hbc with hbc | ⟨hbc, _⟩
      · exact Or.inl (hab.trans hbc)
      · exact Or.inl (hbc ▸ hab)
    · rcases hbc with hbc | ⟨hbc, hbc2⟩
      · exact Or.inl (hab ▸ hbc)
      · exact Or.inr ⟨hab.trans hbc, hab2.trans hbc2⟩

/-- `best_structs = sorted(best_structs + new_best_structs)[:self.beam_size]`
(`generate.py` line 545): merge the accepted candidates into the pool, sort
ascending, truncate to the beam size. -/
def updatePool (beamSize : ℕ) (pool accepted : List PoolCand) : List PoolCand :=
  (List.insertionSort poolLe (pool ++ accepted)).take beamSize

/-- The outcome of one expansion attempt inside a search pass: the objective
computed from the refined residual, and the atom count of the expanded
structure `xyz_new`.  The numeric work (`fit_gd`, `detect_atoms` on the new
residual) is external to the loop logic and is supplied by an oracle. -/
structure Att where
  obj : ℚ
  nAtoms : ℕ
deriving DecidableEq

/-- The acceptance rule `any(objective_new < s[0] for s in best_structs)`
(`generate.py` line 463): an attempt is accepted when its objective is
strictly less than at least one current pool member's objective. -/
def acceptAtt (pool0 : List PoolCand) (a : Att) : Bool :=
  pool0.any fun s => decide (a.obj < s.obj)

/-- Process the expansion attempts of one pool candidate in order: accepted
attempts become new candidates numbered by the running `struct_count`.
Returns the accepted candidates and the next `struct_count`. -/
def processAttempts (pool0 : List PoolCand) : List Att → ℕ → List PoolCand × ℕ
  | [], cnt => ([], cnt)
  | a :: rest, cnt =>
    if acceptAtt pool0 a then
      let pr := processAttempts pool0 rest (cnt + 1)
      (⟨a.obj, cnt, a.nAtoms⟩ :: pr.1, pr.2)
    else processAttempts pool0 rest cnt

/-- The atom count of the last expansion attempt in a list (the final value
of the loop variable `xyz_new` after these attempts), if any attempt ran. -/
def lastAtomCount (atts : List Att) : Option ℕ :=
  atts.getLast?.map Att.nAtoms

/-- One pass of `fit`'s main search loop over the pool (single-atom expansion
mode): each pool candidate not yet in `expanded_ids` is expanded, producing a
list of attempts given by the oracle (indexed by the candidate's id); the pass
accumulates the accepted new candidates, threads `struct_count`, and tracks
the structure size of the overall last attempt (the final value of the python
loop variable `xyz_new`).  Pool ids are unique and `expanded` only grows with
ids of visited candidates, so treating `expanded` as fixed during the pass is
faithful. -/
def passOverPool (oracle : ℕ → List Att) (pool0 : List PoolCand) :
    List PoolCand → List ℕ → ℕ → List PoolCand × ℕ × Option ℕ
  | [], _, cnt => ([], cnt, none)
  | c :: rest, expanded, cnt =>
    if c.id ∈ expanded then passOverPool oracle pool0 rest expanded cnt
    else
      let pr := processAttempts pool0 (oracle c.id) cnt
      let tailRes := passOverPool oracle pool0 rest expanded pr.2
      (pr.1 ++ tailRes.1, tailRes.2.1,
        tailRes.2.2.orElse fun _ => lastAtomCount (oracle c.id))

/-- One full pass of the search loop followed by the pool update and the size
check (`generate.py` lines 431-564): if no attempt was accepted the loop flag
stays false; otherwise the pool becomes the sorted truncated merge, and the
flag is reset to false exactly when `len(xyz_new) >= 50`, where `xyz_new` is
the structure of the pass's last expansion attempt (the `none` branch is
unreachable when an attempt was accepted, since an accepted attempt is an
attempt).  Returns the new pool and the loop-continuation flag. -/
def searchPass (oracle : ℕ → List Att) (beamSize : ℕ) (pool : List PoolCand)
    (expanded : List ℕ) (cnt : ℕ) : List PoolCand × Bool :=
  let pr := passOverPool oracle pool pool expanded cnt
  if pr.1.isEmpty then (pool, false)
  else
    (updatePool beamSize pool pr.1,
      match pr.2.2 with
      | some k => decide (k < 50)
      | none => true)

/-- A detected-atom candidate inside `detect_atoms` after coordinate
conversion: its physical coordinate and its channel index `idx_c`. -/
structure DAtom where
  pos : Point
  ch : ℕ
deriving DecidableEq

/-- Default atom used by positional lookups (`getD`); never selected at
in-range indices. -/
def dAtomDflt : DAtom := ⟨(0, 0, 0), 0⟩

/-- The pairwise suppression test of `detect_atoms`: candidates `b` and `a`
are of the same channel and their squared distance is strictly below
`(min_dist * (r_b + r_a))**2`. -/
def tooClosePair (minDist : ℚ) (r : ℕ → ℚ) (b a : DAtom) : Bool :=
  (b.ch == a.ch) && decide (sqDist b.pos a.pos
    < (minDist * (r b.ch + r a.ch)) * (minDist * (r b.ch + r a.ch)))

/-- Row `i` of the mask `torch.tril((dist2 < min_dist2) & same_type, -1)
.any(dim=1)` in the NxN suppression path: candidate `i` is within the scaled
minimum distance of some strictly earlier (higher-valued) candidate of the
same channel — earlier candidates are compared whether or not they are
themselves suppressed. -/
def tooCloseAt (minDist : ℚ) (r : ℕ → ℚ) (cs : List DAtom) (i : ℕ) : Bool :=
  (cs.take i).any fun b => tooClosePair minDist r b (cs.getD i dAtomDflt)

/-- The NxN-matrix suppression path (`generate.py` lines 307-321, taken when
there are fewer than 1000 candidates): keep exactly the candidates whose mask
row is false, in order (`xyz = xyz[~too_close]`). -/
def nmsMatrix (minDist : ℚ) (r : ℕ → ℚ) (cs : List DAtom) : List DAtom :=
  ((List.range cs.length).filter fun i => !tooCloseAt minDist r cs i).map
    fun i => cs.getD i dAtomDflt

/-- Helper reformulation of the NxN path used to compare it with the loop
path: process candidates in order, keeping a candidate exactly when no
previous candidate (kept or suppressed, accumulated in `prev`) is too close. -/
def nmsMatrixAux (minDist : ℚ) (r : ℕ → ℚ) (prev : List DAtom) :
    List DAtom → List DAtom
  | [] => []
  | a :: rest =>
    if prev.any fun b => tooClosePair minDist r b a then
      nmsMatrixAux minDist r (prev ++ [a]) rest
    else a :: nmsMatrixAux minDist r (prev ++ [a]) rest

/-- The sequential suppression path (`generate.py` lines 322-336, taken at
1000 candidates or more): candidate `i` is kept exactly when no already-KEPT
candidate (`xyz_max`/`idx_c_max`) is too close; the kept list grows by
appending, so the result is emitted in order. -/
def nmsLoopAux (minDist : ℚ) (r : ℕ → ℚ) (kept : List DAtom) :
    List DAtom → List DAtom
  | [] => []
  | a :: rest =>
    if kept.any fun b => tooClosePair minDist r b a then
      nmsLoopAux minDist r kept rest
    else a :: nmsLoopAux minDist r (kept ++ [a]) rest

/-- The sequential path starts from `xyz_max = xyz[0]`: the first candidate
is always kept (in the source this path only runs on lists of length ≥ 1000,
hence nonempty). -/
def nmsLoop (minDist : ℚ) (r : ℕ → ℚ) : List DAtom → List DAtom
  | [] => []
  | a :: rest => a :: nmsLoopAux minDist r [a] rest

/-- The suppression stage dispatch of `detect_atoms`:
`if len(idx_c) < 1000` use the NxN matrices, else use the for loop. -/
def suppress (minDist : ℚ) (r : ℕ → ℚ) (cs : List DAtom) : List DAtom :=
  if cs.length < 1000 then nmsMatrix minDist r cs else nmsLoop minDist r cs

/-- The `AtomFitter` configuration fields consulted by `detect_atoms`.
`peak_value` and `threshold` model "is not None and finite" as `Option`
(a rational is never ±inf); `min_dist` likewise, with suppression requiring
a positive value; `n_atoms_detect` is a (possibly negative) integer. -/
structure DetectCfg where
  applyConv : Bool
  peakValue : Option ℚ
  threshold : Option ℚ
  minDist : Option ℚ
  constrainTypes : Bool
  nAtomsDetect : ℤ
deriving DecidableEq

/-- `suppress_non_max = self.min_dist is not None and self.min_dist > 0.0`. -/
def suppressOn (cfg : DetectCfg) : Bool :=
  match cfg.minDist with
  | some md => decide (0 < md)
  | none => false

/-- The suppression radius multiplier (defined when suppression is on). -/
def minDistVal (cfg : DetectCfg) : ℚ := cfg.minDist.getD 0

/-- `grid = peak_value - (peak_value - grid).abs()`: reflect grid values
above the peak value back down symmetrically. -/
def foldPeak (pv v : ℚ) : ℚ := pv - |pv - v|

/-- Decomposition of a flattened `[channel][x][y][z]` grid index, exactly as
in `detect_atoms`: `idx_z, idx = idx % gd, idx // gd` and so on, ending with
`idx_c = idx % n_channels`. -/
def idxZ (gd i : ℕ) : ℕ := i % gd

/-- The y spatial index of flat index `i`. -/
def idxY (gd i : ℕ) : ℕ := i / gd % gd

/-- The x spatial index of flat index `i`. -/
def idxX (gd i : ℕ) : ℕ := i / gd / gd % gd

/-- The channel index of flat index `i`. -/
def idxC (gd nc i : ℕ) : ℕ := i / gd / gd / gd % nc

/-- `origin = center - resolution * (float(grid_dim) - 1) / 2.0;
xyz = origin + resolution * idx_xyz`: the physical coordinate of flat
index `i`. -/
def coordAt (center : Point) (res : ℚ) (gd : ℕ) (i : ℕ) : Point :=
  (center.1 - res * ((gd : ℚ) - 1) / 2 + res * (idxX gd i : ℚ),
   center.2.1 - res * ((gd : ℚ) - 1) / 2 + res * (idxY gd i : ℚ),
   center.2.2 - res * ((gd : ℚ) - 1) / 2 + res * (idxZ gd i : ℚ))

/-- `values, idx = torch.sort(grid.flatten(), descending=True)`, keeping
(flat index, value) pairs.  torch's tie order is unspecified; this model
fixes one concrete value-descending order. -/
def sortByValueDesc (l : List (ℕ × ℚ)) : List (ℕ × ℚ) :=
  List.insertionSort (fun a b => b.2 ≤ a.2) l

/-- `AtomFitter.detect_atoms` up to (but not including) the final truncation:
optional convolution (an external `F.conv3d` call, supplied as `convFn`),
optional peak folding, flatten-and-sort by value descending, optional
threshold filter (`values > threshold`), optional exhausted-type filter
(`types[idx_c] > 0`), conversion to physical coordinates and channel
indices, and optional non-max suppression (applied only when suppression is
configured on AND `n_atoms_detect > 1`). -/
def detectPre (cfg : DetectCfg) (convFn : List ℚ → List ℚ) (types : ℕ → ℚ)
    (radii : ℕ → ℚ) (nc gd : ℕ) (values : List ℚ) (center : Point)
    (res : ℚ) : List DAtom :=
  let v0 := if cfg.applyConv then convFn values else values
  let v1 := match cfg.peakValue with
    | some pv => v0.map (foldPeak pv)
    | none => v0
  let cands0 := sortByValueDesc v1.enum
  let cands1 := match cfg.threshold with
    | some t => cands0.filter fun (p : ℕ × ℚ) => decide (t < p.2)
    | none => cands0
  let cands2 := if cfg.constrainTypes then
      cands1.filter fun (p : ℕ × ℚ) => decide (0 < types (idxC gd nc p.1))
    else cands1
  let atoms := cands2.map fun (p : ℕ × ℚ) =>
    (⟨coordAt center res gd p.1, idxC gd nc p.1⟩ : DAtom)
  if suppressOn cfg && decide (1 < cfg.nAtomsDetect) then
    suppress (minDistVal cfg) radii atoms
  else atoms

/-- `AtomFitter.detect_atoms`: the candidate pipeline followed by
`if self.n_atoms_detect >= 0: xyz = xyz[:self.n_atoms_detect]` (a negative
`n_atoms_detect` applies no truncation).  The one-hot conversion of the
returned channel indices is a pure change of representation and is kept as
the channel index. -/
def detectAtoms (cfg : DetectCfg) (convFn : List ℚ → List ℚ) (types : ℕ → ℚ)
    (radii : ℕ → ℚ) (nc gd : ℕ) (values : List ℚ) (center : Point)
    (res : ℚ) : List DAtom :=
  let pre := detectPre cfg convFn types radii nc gd values center res
  if 0 ≤ cfg.nAtomsDetect then pre.take cfg.nAtomsDetect.toNat else pre

/-- `np.sort` of a channel vector (`c1[np.argsort(c1)]`); any correct sort
produces the same sorted list. -/
def sortNat (l : List ℕ) : List ℕ := List.insertionSort (· ≤ ·) l

/-- The total squared distance of one positional pairing of two equal-length
point lists: `dist2_c[idx1, idx2].sum()` for the pairing that matches the
lists position by position. -/
def assignCost (xs ys : List Point) : ℚ :=
  ((xs.zip ys).map fun pq => sqDist pq.1 pq.2).sum

/-- The costs of all pairings of `xs` against reorderings of `ys`. -/
def costChoices (xs ys : List Point) : List ℚ :=
  ys.permutations.map (assignCost xs)

/-- Modelled from the spec: `sp.optimize.linear_sum_assignment` (an external
scipy call) solves the linear assignment problem on the squared distance
matrix — per the spec, it minimizes the total squared distance over every
label-preserving bijection (Hungarian algorithm); modelled as the minimum of
the pairing cost over all permutations of the second point list. -/
def minAssignCost (xs ys : List Point) : ℚ :=
  (costChoices xs ys).toFinset.min'
    ⟨assignCost xs ys,
      List.mem_toFinset.mpr
        (List.mem_map.mpr ⟨ys, List.mem_permutations.mpr (List.Perm.refl ys), rfl⟩)⟩

/-- `xyz1[c1 == c]`: the points of a labeled point set lying in channel
`ch`, in order. -/
def channelPoints (xyz : List Point) (c : List ℕ) (ch : ℕ) : List Point :=
  ((xyz.zip c).filter fun pc => pc.2 == ch).map Prod.fst

/-- The accumulated `ssd` of `get_min_rmsd`: for each channel value present
in `c1`, the minimum assignment cost between the two per-channel point
selections, summed over channels (`for c in set(c1)`). -/
def ssdTotal (xyz1 : List Point) (c1 : List ℕ) (xyz2 : List Point)
    (c2 : List ℕ) : ℚ :=
  (c1.dedup.map fun ch =>
    minAssignCost (channelPoints xyz1 c1 ch) (channelPoints xyz2 c2 ch)).sum

/-- `get_min_rmsd(xyz1, c1, xyz2, c2)` up to the final square root: raises
when the structures differ in size, raises when the sorted channel vectors
differ, and (implicitly, via python's `ssd / n_atoms` with `n_atoms == 0`)
raises a ZeroDivisionError when both structures are empty; otherwise returns
`ssd / n_atoms`.  The source returns `np.sqrt` of this value; the square
root is strictly monotone and preserves equality, permutation invariance and
zero, and is omitted because it is irrational in general. -/
def getMinRmsdSq (xyz1 : List Point) (c1 : List ℕ) (xyz2 : List Point)
    (c2 : List ℕ) : Except String ℚ :=
  if c1.length ≠ c2.length then .error "structs must have same num atoms"
  else if sortNat c1 ≠ sortNat c2 then
    .error "structs must have same num atoms of each type"
  else if c1.length = 0 then .error "float division by zero"
  else .ok (ssdTotal xyz1 c1 xyz2 c2 / (c1.length : ℚ))

/-! ### Helper lemmas -/

/-- Rendering the empty structure yields the all-zero grid. -/
theorem renderGrid_nil (contrib : Point × ℕ → ℕ → ℚ) (nvox : ℕ) :
    renderGrid contrib [] nvox = List.replicate nvox 0 := by
  unfold renderGrid
  calc (List.range nvox).map (fun _ => (([] : List ℚ)).sum)
      = (List.range nvox).map fun _ => (0 : ℚ) := by simp
    _ = List.replicate nvox 0 := by
        rw [List.map_const']
        simp

/-- The residual of a target against the zero grid is the target itself. -/
theorem residual_zero (v : List ℚ) :
    residual v (List.replicate v.length 0) = v := by
  induction v with
  | nil => rfl
  | cons a t ih =>
    simp only [residual, List.length_cons, List.replicate_succ, List.zipWith_cons_cons,
      sub_zero]
    exact congrArg (a :: ·) ih

/-- The pool order is compatible with the objective order. -/
theorem poolLe_obj_le {a b : PoolCand} (h : poolLe a b) : a.obj ≤ b.obj := by
  rcases h with h | ⟨h, _⟩
  · exact le_of_lt h
  · exact le_of_eq h

/-- Closed form of the `fit_gd` loop: the final coordinates are the
`n`-fold optimizer-step iterate, and the returned grid, residual and loss
are evaluated at those final coordinates. -/
theorem fitGDAux_eq {σ β : Type} (stepFn : σ → β → σ × β) (render : β → List ℚ)
    (fitL1 : Bool) (target : List ℚ) :
    ∀ (n : ℕ) (s : σ) (xyz : β),
      fitGDAux stepFn render fitL1 target n s xyz
        = (((fun p : σ × β => stepFn p.1 p.2)^[n] (s, xyz)).2,
           render (((fun p : σ × β => stepFn p.1 p.2)^[n] (s, xyz)).2),
           residual target (render (((fun p : σ × β => stepFn p.1 p.2)^[n] (s, xyz)).2)),
           gdLoss fitL1 (residual target
             (render (((fun p : σ × β => stepFn p.1 p.2)^[n] (s, xyz)).2)))) := by
  intro n
  induction n with
  | zero => intro s xyz; rfl
  | succ k ih =>
    intro s xyz
    have hstep : (fun p : σ × β => stepFn p.1 p.2)^[k + 1] (s, xyz)
        = (fun p : σ × β => stepFn p.1 p.2)^[k] (stepFn s xyz) := by
      rw [Function.iterate_succ_apply]
    simp only [fitGDAux, hstep]
    have := ih (stepFn s xyz).1 (stepFn s xyz).2
    simpa using this

/-! ### Claim theorems -/

/-- C3: the fit loss assigned to the initial empty structure equals the full
target field's magnitude: the loss the gradient refiner computes on the empty
structure (whose rendering is the all-zero grid, so the residual is the full
target) is exactly the directly-computed initial fit loss — the L1 magnitude
of the target values under `fit_L1_loss`, the halved sum of squares
otherwise — and, under `constrain_types`, the initial objective pairs this
fit loss with the full type-count magnitude as the lexicographic first
component. -/
theorem c3_empty_struct_objective (contrib : Point × ℕ → ℕ → ℚ)
    (values types : List ℚ) (fitL1 : Bool) :
    gdLoss fitL1 (residual values (renderGrid contrib [] values.length))
        = initFitLoss fitL1 values
    ∧ initObjective true fitL1 values types
        = .pair (l1Loss types)
            (gdLoss fitL1 (residual values (renderGrid contrib [] values.length)))
    ∧ initObjective false fitL1 values types
        = .scalar
            (gdLoss fitL1 (residual values (renderGrid contrib [] values.length))) := by
  have h : residual values (renderGrid contrib [] values.length) = values := by
    rw [renderGrid_nil]
    exact residual_zero values
  rw [h]
  exact ⟨rfl, rfl, rfl⟩

/-- C7: `fit_gd` uses no convergence test: for every iteration budget it
performs exactly `nIters` optimizer steps (its result's coordinates are the
`nIters`-fold iterate of the optimizer step), it is total (never raises),
and it returns the refined coordinates, the density rendered at them, the
residual (target minus rendered density), and the loss (halved sum of squared
residual, or sum of absolute residual under L1) evaluated at the final
coordinates. -/
theorem c7_fit_gd_budget {σ β : Type} (stepFn : σ → β → σ × β)
    (render : β → List ℚ) (fitL1 : Bool) (target : List ℚ) (s0 : σ) (xyz0 : β)
    (nIters : ℕ) :
    (fitGD stepFn render fitL1 target s0 xyz0 nIters).1
        = ((fun p : σ × β => stepFn p.1 p.2)^[nIters] (s0, xyz0)).2
    ∧ (fitGD stepFn render fitL1 target s0 xyz0 nIters).2.1
        = render (fitGD stepFn render fitL1 target s0 xyz0 nIters).1
    ∧ (fitGD stepFn render fitL1 target s0 xyz0 nIters).2.2.1
        = residual target (render (fitGD stepFn render fitL1 target s0 xyz0 nIters).1)
    ∧ (fitGD stepFn render fitL1 target s0 xyz0 nIters).2.2.2
        = gdLoss fitL1
            (residual target (render (fitGD stepFn render fitL1 target s0 xyz0 nIters).1)) := by
  have h := fitGDAux_eq stepFn render fitL1 target nIters s0 xyz0
  unfold fitGD
  rw [h]
  exact ⟨rfl, rfl, rfl, rfl⟩

/-- C6: `detect_atoms` truncates its surviving candidate list to
`n_atoms_detect` entries when `n_atoms_detect ≥ 0` — the result is the
prefix of the value-ranked surviving candidates, hence the highest-priority
survivors, and has length at most `n_atoms_detect` — while a negative
`n_atoms_detect` applies no truncation at all. -/
theorem c6_truncation (cfg : DetectCfg) (convFn : List ℚ → List ℚ)
    (types : ℕ → ℚ) (radii : ℕ → ℚ) (nc gd : ℕ) (values : List ℚ)
    (center : Point) (res : ℚ) :
    (0 ≤ cfg.nAtomsDetect →
      detectAtoms cfg convFn types radii nc gd values center res
          = (detectPre cfg convFn types radii nc gd values center res).take
              cfg.nAtomsDetect.toNat
        ∧ (detectAtoms cfg convFn types radii nc gd values center res).length
            ≤ cfg.nAtomsDetect.toNat)
    ∧ (cfg.nAtomsDetect < 0 →
      detectAtoms cfg convFn types radii nc gd values center res
          = detectPre cfg convFn types radii nc gd values center res) := by
  constructor
  · intro h
    have he : detectAtoms cfg convFn types radii nc gd values center res
        = (detectPre cfg convFn types radii nc gd values center res).take
            cfg.nAtomsDetect.toNat := by
      unfold detectAtoms
      rw [if_pos h]
    refine ⟨he, ?_⟩
    rw [he, List.length_take]
    exact min_le_left _ _
  · intro h
    unfold detectAtoms
    rw [if_neg (not_le.mpr h)]

/-- Witness for C6 at a concrete configuration with `n_atoms_detect = 1`. -/
theorem c6_truncation_witness :
    detectAtoms ⟨false, none, none, none, false, 1⟩ id (fun _ => 0)
        (fun _ => 1) 1 1 [0] (0, 0, 0) 1
      = (detectPre ⟨false, none, none, none, false, 1⟩ id (fun _ => 0)
          (fun _ => 1) 1 1 [0] (0, 0, 0) 1).take ((1 : ℤ).toNat)
    ∧ (detectAtoms ⟨false, none, none, none, false, 1⟩ id (fun _ => 0)
        (fun _ => 1) 1 1 [0] (0, 0, 0) 1).length ≤ ((1 : ℤ).toNat) :=
  (c6_truncation ⟨false, none, none, none, false, 1⟩ id (fun _ => 0)
    (fun _ => 1) 1 1 [0] (0, 0, 0) 1).1 (by decide)

/-- C1: when a search pass accepts at least one expansion (each accepted
candidate's objective is strictly below some current pool member's), the new
pool is the ascending sort of old pool plus accepted candidates truncated to
the beam size; it is sorted ascending, nonempty, and its best (first, lowest)
objective is at most every old pool member's objective — so the pool's best
objective never increases across accepted steps. -/
theorem c1_pool_merge (beamSize : ℕ) (pool accepted : List PoolCand)
    (hbeam : 1 ≤ beamSize) (hpool : pool ≠ [])
    (hacc : ∀ a ∈ accepted, ∃ s ∈ pool, a.obj < s.obj) :
    updatePool beamSize pool accepted
        = (List.insertionSort poolLe (pool ++ accepted)).take beamSize
    ∧ List.Sorted poolLe (updatePool beamSize pool accepted)
    ∧ ∃ q tl, updatePool beamSize pool accepted = q :: tl
        ∧ ∀ s ∈ pool, q.obj ≤ s.obj := by
  refine ⟨rfl, ?_, ?_⟩
  · exact List.Pairwise.sublist (List.take_sublist _ _)
      (List.sorted_insertionSort poolLe (pool ++ accepted))
  · have hperm : (List.insertionSort poolLe (pool ++ accepted)).Perm (pool ++ accepted) :=
      List.perm_insertionSort poolLe (pool ++ accepted)
    have hsorted := List.sorted_insertionSort poolLe (pool ++ accepted)
    rcases hL : List.insertionSort poolLe (pool ++ accepted) with _ | ⟨q, tl⟩
    · exfalso
      have := hperm.length_eq
      rw [hL] at this
      rcases pool with _ | ⟨p, ps⟩
      · exact hpool rfl
      · simp at this
    · obtain ⟨b, rfl⟩ : ∃ b, beamSize = b + 1 := ⟨beamSize - 1, by omega⟩
      refine ⟨q, tl.take b, ?_, ?_⟩
      · unfold updatePool
        rw [hL, List.take_succ_cons]
      · intro s hs
        have hmem : s ∈ List.insertionSort poolLe (pool ++ accepted) :=
          hperm.mem_iff.mpr (List.mem_append.mpr (Or.inl hs))
        rw [hL] at hmem hsorted
        rcases List.mem_cons.mp hmem with rfl | hmem
        · exact le_refl _
        · exact poolLe_obj_le ((List.sorted_cons.mp hsorted).1 s hmem)

/-- Witness for C1 at a concrete pool and accepted candidate. -/
theorem c1_pool_merge_witness :
    updatePool 1 [⟨5, 0, 0⟩] [⟨3, 1, 1⟩]
        = (List.insertionSort poolLe ([⟨5, 0, 0⟩] ++ [⟨3, 1, 1⟩])).take 1
    ∧ List.Sorted poolLe (updatePool 1 [⟨5, 0, 0⟩] [⟨3, 1, 1⟩])
    ∧ ∃ q tl, updatePool 1 [⟨5, 0, 0⟩] [⟨3, 1, 1⟩] = q :: tl
        ∧ ∀ s ∈ [(⟨5, 0, 0⟩ : PoolCand)], q.obj ≤ s.obj :=
  c1_pool_merge 1 [⟨5, 0, 0⟩] [⟨3, 1, 1⟩] (by decide) (by decide) (by decide)

/-- C2 (amended): the search loop's continuation flag after a pass is true
exactly when some expansion was accepted this pass AND the structure of the
pass's LAST expansion attempt (the loop variable `xyz_new`, not the best pool
candidate) has fewer than 50 atoms. -/
theorem c2_continue_iff (oracle : ℕ → List Att) (beamSize : ℕ)
    (pool : List PoolCand) (expanded : List ℕ) (cnt : ℕ) :
    (searchPass oracle beamSize pool expanded cnt).2 = true ↔
      ((passOverPool oracle pool pool expanded cnt).1 ≠ []
        ∧ ∀ k, (passOverPool oracle pool pool expanded cnt).2.2 = some k → k < 50) := by
  rcases hpr : passOverPool oracle pool pool expanded cnt with ⟨nb, cnt2, lastN⟩
  simp only [searchPass, hpr]
  cases nb with
  | nil => simp
  | cons a l =>
    cases lastN with
    | none => simp
    | some k => simp

/-- Witness for C2's amended theorem at a concrete pass. -/
theorem c2_continue_iff_witness :
    (searchPass (fun i => if i = 0 then [⟨5, 2⟩] else []) 1 [⟨10, 0, 1⟩] [] 1).2
      = true :=
  (c2_continue_iff (fun i => if i = 0 then [⟨5, 2⟩] else []) 1 [⟨10, 0, 1⟩] [] 1).mpr
    ⟨by decide, by
      intro k hk
      have h : (passOverPool (fun i => if i = 0 then [⟨5, 2⟩] else [])
          [⟨10, 0, 1⟩] [⟨10, 0, 1⟩] [] 1).2.2 = some 2 := by decide
      rw [h] at hk
      simp only [Option.some.injEq] at hk
      omega⟩

/-- C2 counterexample: a pass through a two-candidate pool in which the best
merged pool candidate reaches exactly 50 atoms, yet the loop flag stays true
because the pass's last expansion attempt (from the other candidate) has only
4 atoms — the loop continues a further pass while the best pool candidate has
50 atoms, contradicting the claim. -/
theorem c2_counterexample :
    (searchPass (fun i => if i = 7 then [⟨5, 50⟩] else if i = 8 then [⟨11, 4⟩] else [])
        2 [⟨10, 7, 49⟩, ⟨12, 8, 3⟩] [] 9).2 = true
    ∧ ((searchPass (fun i => if i = 7 then [⟨5, 50⟩] else if i = 8 then [⟨11, 4⟩] else [])
        2 [⟨10, 7, 49⟩, ⟨12, 8, 3⟩] [] 9).1).head?.map PoolCand.nAtoms = some 50 := by
  decide

/-- The NxN suppression mask computation, reformulated as a left-to-right
recursion accumulating ALL previously seen candidates. -/
theorem nmsMatrixAux_spec (md : ℚ) (r : ℕ → ℚ) :
    ∀ (cs prev : List DAtom),
      nmsMatrixAux md r prev cs
        = ((List.range cs.length).filter fun i =>
            !((prev ++ cs.take i).any fun b =>
              tooClosePair md r b (cs.getD i dAtomDflt))).map
            fun i => cs.getD i dAtomDflt := by
  intro cs
  induction cs with
  | nil => intro prev; rfl
  | cons a rest ih =>
    intro prev
    have htail : ((List.map Nat.succ (List.range rest.length)).filter fun i =>
          !((prev ++ (a :: rest).take i).any fun b =>
            tooClosePair md r b ((a :: rest).getD i dAtomDflt))).map
            (fun i => (a :: rest).getD i dAtomDflt)
        = ((List.range rest.length).filter fun i =>
            !(((prev ++ [a]) ++ rest.take i).any fun b =>
              tooClosePair md r b (rest.getD i dAtomDflt))).map
            fun i => rest.getD i dAtomDflt := by
      rw [List.filter_map, List.map_map]
      have h1 : ((fun i => (a :: rest).getD i dAtomDflt) ∘ Nat.succ)
          = fun i => rest.getD i dAtomDflt := by
        funext i
        simp only [Function.comp_apply, List.getD_cons_succ]
      have h2 : ((fun i =>
          !((prev ++ (a :: rest).take i).any fun b =>
            tooClosePair md r b ((a :: rest).getD i dAtomDflt))) ∘ Nat.succ)
          = fun i => !(((prev ++ [a]) ++ rest.take i).any fun b =>
              tooClosePair md r b (rest.getD i dAtomDflt)) := by
        funext i
        simp only [Function.comp_apply, List.take_succ_cons, List.getD_cons_succ]
        rw [show prev ++ a :: rest.take i = prev ++ [a] ++ rest.take i by simp]
      rw [h1, h2]
    have hrec : nmsMatrixAux md r (prev ++ [a]) rest
        = ((List.map Nat.succ (List.range rest.length)).filter fun i =>
            !((prev ++ (a :: rest).take i).any fun b =>
              tooClosePair md r b ((a :: rest).getD i dAtomDflt))).map
            (fun i => (a :: rest).getD i dAtomDflt) :=
      (ih (prev ++ [a])).trans htail.symm
    rw [List.length_cons, List.range_succ_eq_map, List.filter_cons]
    by_cases hm : (prev.any fun b => tooClosePair md r b a) = true
    · have hp0 : ¬((fun i =>
          !((prev ++ (a :: rest).take i).any fun b =>
            tooClosePair md r b ((a :: rest).getD i dAtomDflt))) 0 = true) := by
        simp [hm]
      rw [if_neg hp0]
      simp only [nmsMatrixAux]
      rw [if_pos hm]
      exact hrec
    · have hp0 : ((fun i =>
          !((prev ++ (a :: rest).take i).any fun b =>
            tooClosePair md r b ((a :: rest).getD i dAtomDflt))) 0 = true) := by
        have hf : (prev.any fun b => tooClosePair md r b a) = false :=
          Bool.eq_false_iff.mpr hm
        simp [hf]
      rw [if_pos hp0]
      simp only [nmsMatrixAux]
      rw [if_neg hm, List.map_cons, List.getD_cons_zero]
      exact congrArg (a :: ·) hrec

/-- The NxN path in mask form equals its accumulator reformulation. -/
theorem nmsMatrix_eq_aux (md : ℚ) (r : ℕ → ℚ) (cs : List DAtom) :
    nmsMatrix md r cs = nmsMatrixAux md r [] cs := by
  rw [nmsMatrixAux_spec]
  unfold nmsMatrix tooCloseAt
  simp only [List.nil_append]

/-- Parallel induction: whatever the matrix path keeps, the loop path keeps,
provided the loop's kept accumulator is contained in the matrix's seen
accumulator. -/
theorem nmsAux_sublist (md : ℚ) (r : ℕ → ℚ) :
    ∀ (cs prev kept : List DAtom), (∀ b ∈ kept, b ∈ prev) →
      (nmsMatrixAux md r prev cs).Sublist (nmsLoopAux md r kept cs) := by
  intro cs
  induction cs with
  | nil => intro prev kept _; exact List.Sublist.refl []
  | cons a rest ih =>
    intro prev kept hsub
    have hmono : (kept.any fun b => tooClosePair md r b a) = true →
        (prev.any fun b => tooClosePair md r b a) = true := by
      intro hk
      rcases List.any_eq_true.mp hk with ⟨b, hb, hbp⟩
      exact List.any_eq_true.mpr ⟨b, hsub b hb, hbp⟩
    have hsub1 : ∀ b ∈ kept, b ∈ prev ++ [a] := fun b hb =>
      List.mem_append.mpr (Or.inl (hsub b hb))
    have hsub2 : ∀ b ∈ kept ++ [a], b ∈ prev ++ [a] := by
      intro b hb
      rcases List.mem_append.mp hb with hb | hb
      · exact List.mem_append.mpr (Or.inl (hsub b hb))
      · exact List.mem_append.mpr (Or.inr hb)
    unfold nmsMatrixAux nmsLoopAux
    rcases hm : prev.any fun b => tooClosePair md r b a with _ | _
    · have hk : (kept.any fun b => tooClosePair md r b a) = false := by
        rcases hx : kept.any fun b => tooClosePair md r b a with _ | _
        · rfl
        · rw [hmono hx] at hm; cases hm
      rw [hk]
      simp only [Bool.false_eq_true, if_neg]
      exact List.Sublist.cons₂ a (ih (prev ++ [a]) (kept ++ [a]) hsub2)
    · rcases hk : kept.any fun b => tooClosePair md r b a with _ | _
      · simp only [Bool.false_eq_true, if_neg, if_pos rfl]
        exact List.Sublist.cons a (ih (prev ++ [a]) (kept ++ [a]) hsub2)
      · simp only [if_pos rfl]
        exact ih (prev ++ [a]) kept hsub1

/-- C10 (amended): the NxN-matrix suppression path keeps a subset of what the
sequential for-loop path keeps, in the same relative order (its output is a
sublist of the loop path's output).  The paths are NOT equivalent in general:
the matrix path also suppresses against earlier candidates that were
themselves suppressed, while the loop path only tests against earlier
SURVIVING candidates. -/
theorem c10_matrix_sublist_loop (md : ℚ) (r : ℕ → ℚ) (cs : List DAtom) :
    (nmsMatrix md r cs).Sublist (nmsLoop md r cs) := by
  rw [nmsMatrix_eq_aux]
  cases cs with
  | nil => exact List.Sublist.refl []
  | cons a rest =>
    have h := nmsAux_sublist md r rest [a] [a] (fun b hb => hb)
    unfold nmsMatrixAux
    simp only [List.any_nil, Bool.false_eq_true, if_neg, List.nil_append]
    unfold nmsLoop
    exact List.Sublist.cons₂ a h

/-- C10 counterexample: three same-channel candidates A, B, C on a line, with
B within suppression range of A, C within range of B but not of A.  The
matrix path suppresses both B and C (C is close to the already-suppressed B),
keeping only A; the loop path suppresses B but keeps C: the two paths do not
keep the same atoms. -/
theorem c10_paths_differ :
    nmsMatrix (1 / 2) (fun _ => 1)
        [⟨(0, 0, 0), 0⟩, ⟨(9 / 10, 0, 0), 0⟩, ⟨(9 / 5, 0, 0), 0⟩]
      ≠ nmsLoop (1 / 2) (fun _ => 1)
        [⟨(0, 0, 0), 0⟩, ⟨(9 / 10, 0, 0), 0⟩, ⟨(9 / 5, 0, 0), 0⟩] := by
  with_unfolding_all decide

/-- C4 (amended): on the NxN path (fewer than 1000 candidates), which the
suppression dispatch selects there, a candidate is flagged as suppressed if
and only if some strictly earlier (higher-ranked) candidate of the same
channel lies strictly within `min_dist * (r_a + r_b)` — so two same-channel
candidates closer than that are collapsed into the higher-ranked one only.
(The source additionally requires `n_atoms_detect > 1` for the suppression
stage to run at all; see the counterexample.) -/
theorem c4_suppression_rule (md : ℚ) (r : ℕ → ℚ) (cs : List DAtom)
    (hlen : cs.length < 1000) :
    suppress md r cs = nmsMatrix md r cs
    ∧ ∀ i, ∀ hi : i < cs.length,
        (tooCloseAt md r cs i = true ↔
          ∃ j, ∃ hj : j < i,
            (cs.get ⟨j, hj.trans hi⟩).ch = (cs.get ⟨i, hi⟩).ch
            ∧ sqDist (cs.get ⟨j, hj.trans hi⟩).pos (cs.get ⟨i, hi⟩).pos
                < (md * (r (cs.get ⟨j, hj.trans hi⟩).ch + r (cs.get ⟨i, hi⟩).ch))
                  * (md * (r (cs.get ⟨j, hj.trans hi⟩).ch + r (cs.get ⟨i, hi⟩).ch))) := by
  constructor
  · unfold suppress
    rw [if_pos hlen]
  · intro i hi
    unfold tooCloseAt
    rw [List.any_eq_true]
    constructor
    · rintro ⟨b, hb, hbp⟩
      rw [List.mem_take_iff_getElem] at hb
      obtain ⟨j, hj, hbj⟩ := hb
      have hj1 : j < i := lt_of_lt_of_le hj (min_le_left _ _)
      have hgb : cs.get ⟨j, hj1.trans hi⟩ = b := by
        rw [List.get_eq_getElem]
        exact hbj
      have hgi : cs.getD i dAtomDflt = cs.get ⟨i, hi⟩ := by
        rw [List.getD_eq_getElem cs dAtomDflt hi, List.get_eq_getElem]
      rw [hgi] at hbp
      simp only [tooClosePair, Bool.and_eq_true, beq_iff_eq, decide_eq_true_eq] at hbp
      exact ⟨j, hj1, by rw [hgb]; exact hbp.1, by rw [hgb]; exact hbp.2⟩
    · rintro ⟨j, hj, hch, hd⟩
      refine ⟨cs.get ⟨j, hj.trans hi⟩, ?_, ?_⟩
      · rw [List.mem_take_iff_getElem]
        exact ⟨j, lt_min hj (hj.trans hi), by rw [List.get_eq_getElem]⟩
      · have hgi : cs.getD i dAtomDflt = cs.get ⟨i, hi⟩ := by
          rw [List.getD_eq_getElem cs dAtomDflt hi, List.get_eq_getElem]
        rw [hgi]
        simp only [tooClosePair, Bool.and_eq_true, beq_iff_eq, decide_eq_true_eq]
        exact ⟨hch, hd⟩

/-- Witness for C4's amended theorem at a one-candidate list. -/
theorem c4_suppression_rule_witness :
    suppress 1 (fun _ => 1) [⟨(0, 0, 0), 0⟩] = nmsMatrix 1 (fun _ => 1) [⟨(0, 0, 0), 0⟩] :=
  (c4_suppression_rule 1 (fun _ => 1) [⟨(0, 0, 0), 0⟩] (by decide)).1

/-- C4 counterexample: with suppression configured on (`min_dist = 1 > 0`)
but `n_atoms_detect = -1` (no limit), two same-channel candidates at distance
1 — strictly within `min_dist * (r_a + r_b) = 2` (the first conjunct) — are
BOTH returned by `detect_atoms`: the lower-ranked one is not suppressed,
because the suppression stage only runs when `n_atoms_detect > 1`, a
condition the claim omits. -/
theorem c4_counterexample :
    tooClosePair 1 (fun _ => 1) ⟨(-1 / 2, -1 / 2, -1 / 2), 0⟩
        ⟨(-1 / 2, -1 / 2, 1 / 2), 0⟩ = true
    ∧ detectAtoms ⟨false, none, some (1 / 2), some 1, false, -1⟩ id (fun _ => 0)
        (fun _ => 1) 1 2 [1, 9 / 10, 0, 0, 0, 0, 0, 0] (0, 0, 0) 1
      = [⟨(-1 / 2, -1 / 2, -1 / 2), 0⟩, ⟨(-1 / 2, -1 / 2, 1 / 2), 0⟩] := by
  with_unfolding_all decide

/-- Every value paired in the sorted enumeration of a list is a value of the
list. -/
theorem snd_mem_of_mem_sortDesc {v : List ℚ} {p : ℕ × ℚ}
    (hp : p ∈ sortByValueDesc v.enum) : p.2 ∈ v := by
  unfold sortByValueDesc at hp
  have hmem : p ∈ v.enum := (List.perm_insertionSort _ _).mem_iff.mp hp
  rw [List.enum_eq_zip_range] at hmem
  rcases p with ⟨i, x⟩
  exact (List.of_mem_zip hmem).2

/-- Folding the peak value over a zero grid value gives a nonpositive
value: `pv - |pv - 0| = pv - |pv| ≤ 0`. -/
theorem foldPeak_zero_nonpos (pv : ℚ) : foldPeak pv 0 ≤ 0 := by
  unfold foldPeak
  rw [sub_zero]
  exact sub_nonpos.mpr (le_abs_self pv)

/-- A nonnegative threshold filters out every candidate of a constant
nonpositive-valued grid. -/
theorem filterThreshold_nil {t a : ℚ} (ht0 : 0 ≤ t) (ha : a ≤ 0) (m : ℕ) :
    ((sortByValueDesc (List.replicate m a).enum).filter fun (p : ℕ × ℚ) =>
      decide (t < p.2)) = [] := by
  rw [List.filter_eq_nil_iff]
  intro p hp
  have h2 : p.2 = a := List.eq_of_mem_replicate (snd_mem_of_mem_sortDesc hp)
  rw [h2]
  simp only [decide_eq_true_eq]
  exact not_lt.mpr (ha.trans ht0)

/-- Suppression of an empty candidate list yields the empty list. -/
theorem suppress_nil (md : ℚ) (r : ℕ → ℚ) : suppress md r [] = [] := rfl

/-- C5 (amended): for every all-zero input density field, every detector
configuration that applies a nonnegative finite threshold — and whose
convolution, if enabled, maps the zero field to the zero field — returns
zero atoms.  (Without a nonnegative threshold the zero values survive to
truncation and atoms ARE returned; see the counterexample.) -/
theorem c5_zero_field (cfg : DetectCfg) (convFn : List ℚ → List ℚ)
    (types : ℕ → ℚ) (radii : ℕ → ℚ) (nc gd : ℕ) (center : Point) (res : ℚ)
    (t : ℚ) (ht : cfg.threshold = some t) (ht0 : 0 ≤ t)
    (hconv : cfg.applyConv = true →
      convFn (List.replicate (nc * gd ^ 3) 0) = List.replicate (nc * gd ^ 3) 0) :
    detectAtoms cfg convFn types radii nc gd (List.replicate (nc * gd ^ 3) 0)
      center res = [] := by
  obtain ⟨ac, pv, th, mdist, ct, nad⟩ := cfg
  have ht' : th = some t := ht
  subst ht'
  have hconv' : ac = true →
      convFn (List.replicate (nc * gd ^ 3) 0) = List.replicate (nc * gd ^ 3) 0 :=
    hconv
  have hpre : detectPre ⟨ac, pv, some t, mdist, ct, nad⟩ convFn types radii nc gd
      (List.replicate (nc * gd ^ 3) 0) center res = [] := by
    have hv0 : (if ac = true then convFn (List.replicate (nc * gd ^ 3) 0)
        else List.replicate (nc * gd ^ 3) 0) = List.replicate (nc * gd ^ 3) 0 := by
      cases ac with
      | false => rfl
      | true => simpa using hconv' rfl
    simp only [detectPre, hv0]
    cases pv with
    | none =>
      dsimp only
      rw [filterThreshold_nil ht0 le_rfl]
      cases ct <;> simp [suppress_nil]
    | some pvv =>
      dsimp only
      rw [List.map_replicate, filterThreshold_nil ht0 (foldPeak_zero_nonpos pvv)]
      cases ct <;> simp [suppress_nil]
  simp only [detectAtoms, hpre, List.take_nil, ite_self]

/-- Witness for C5's amended theorem at a concrete configuration with
threshold 0 and no convolution. -/
theorem c5_zero_field_witness :
    detectAtoms ⟨false, none, some 0, none, false, 1⟩ id (fun _ => 0)
        (fun _ => 1) 1 1 (List.replicate (1 * 1 ^ 3) 0) (0, 0, 0) 1 = [] :=
  c5_zero_field ⟨false, none, some 0, none, false, 1⟩ id (fun _ => 0)
    (fun _ => 1) 1 1 (0, 0, 0) 1 0 rfl le_rfl (fun _ => rfl)

/-- C5 counterexample: an all-zero one-voxel field with a configuration that
applies no threshold (`threshold = None`) yields one detected atom, not zero:
the zero-valued voxel survives every filter and the truncation keeps it. -/
theorem c5_counterexample :
    detectAtoms ⟨false, none, none, none, false, 1⟩ id (fun _ => 0)
        (fun _ => 1) 1 1 (List.replicate (1 * 1 ^ 3) 0) (0, 0, 0) 1 ≠ []
    ∧ detectAtoms ⟨false, none, none, none, false, 1⟩ id (fun _ => 0)
        (fun _ => 1) 1 1 (List.replicate (1 * 1 ^ 3) 0) (0, 0, 0) 1
      = [⟨(0, 0, 0), 0⟩] := by
  with_unfolding_all decide

/-- Two channel vectors sort equal exactly when their per-channel count
histograms agree. -/
theorem sortNat_eq_iff (c1 c2 : List ℕ) :
    sortNat c1 = sortNat c2 ↔ ∀ ch, c1.count ch = c2.count ch := by
  constructor
  · intro h ch
    have h1 : c1.Perm (sortNat c1) := (List.perm_insertionSort _ c1).symm
    have h2 : (sortNat c2).Perm c2 := List.perm_insertionSort _ c2
    have hm : (sortNat c1).Perm (sortNat c2) := h ▸ List.Perm.refl (sortNat c1)
    exact ((h1.trans hm).trans h2).count_eq ch
  · intro h
    have hp : c1.Perm c2 := List.perm_iff_count.mpr h
    exact List.eq_of_perm_of_sorted
      ((List.perm_insertionSort _ c1).trans
        (hp.trans (List.perm_insertionSort _ c2).symm))
      (List.sorted_insertionSort _ c1) (List.sorted_insertionSort _ c2)

/-- C8 (amended): `get_min_rmsd` raises if and only if the two labeled point
sets differ in total atom count, differ in per-channel count histograms, or
are both empty (where python's `ssd / n_atoms` divides by zero).  In the
raising case no RMSD value is produced (the result carries only the error),
and the function is pure, leaving its inputs unchanged. -/
theorem c8_error_iff (xyz1 : List Point) (c1 : List ℕ) (xyz2 : List Point)
    (c2 : List ℕ) :
    (getMinRmsdSq xyz1 c1 xyz2 c2).isOk = false ↔
      (c1.length ≠ c2.length ∨ ¬(∀ ch, c1.count ch = c2.count ch)
        ∨ c1.length = 0) := by
  unfold getMinRmsdSq
  by_cases hA : c1.length = c2.length
  · rw [if_neg (fun hc => hc hA)]
    by_cases hB : sortNat c1 = sortNat c2
    · rw [if_neg (fun hc => hc hB)]
      by_cases hC : c1.length = 0
      · rw [if_pos hC]
        exact iff_of_true rfl (Or.inr (Or.inr hC))
      · rw [if_neg hC]
        refine iff_of_false ?_ ?_
        · intro hf
          have hcontra : (true : Bool) = false := hf
          cases hcontra
        · rintro (h | h | h)
          · exact h hA
          · exact h ((sortNat_eq_iff c1 c2).mp hB)
          · exact hC h
    · rw [if_pos hB]
      exact iff_of_true rfl
        (Or.inr (Or.inl fun hall => hB ((sortNat_eq_iff c1 c2).mpr hall)))
  · rw [if_pos hA]
    exact iff_of_true rfl (Or.inl hA)

/-- Witness for C8's amended theorem at structures of different sizes. -/
theorem c8_error_iff_witness :
    (getMinRmsdSq [] [] [(0, 0, 0)] [0]).isOk = false :=
  (c8_error_iff [] [] [(0, 0, 0)] [0]).mpr (Or.inl (by decide))

/-- C8 counterexample: two EMPTY labeled point sets have equal total count
and equal per-channel histograms, yet `get_min_rmsd` still raises (python's
`ssd / n_atoms` is a zero division), refuting the claimed "if and only if". -/
theorem c8_counterexample :
    (getMinRmsdSq [] [] [] []).isOk = false
    ∧ ([] : List ℕ).length = ([] : List ℕ).length
    ∧ ∀ ch : ℕ, ([] : List ℕ).count ch = ([] : List ℕ).count ch :=
  ⟨rfl, rfl, fun _ => rfl⟩

/-- Transport of a pairing along a permutation of the first point list:
any pairing of `xs` can be re-indexed into a pairing of `xs2` with the same
multiset of matched pairs. -/
theorem zip_perm_transport {xs xs2 : List Point} (h : xs.Perm xs2) :
    ∀ p : List Point, p.length = xs.length →
      ∃ p2, p2.Perm p ∧ (xs2.zip p2).Perm (xs.zip p) := by
  induction h with
  | nil =>
    intro p _
    exact ⟨p, List.Perm.refl p, by simp⟩
  | cons x h ih =>
    intro p hp
    cases p with
    | nil => simp at hp
    | cons a pt =>
      obtain ⟨pt2, hpt2, hzip⟩ := ih pt (by simpa using hp)
      refine ⟨a :: pt2, hpt2.cons a, ?_⟩
      rw [List.zip_cons_cons, List.zip_cons_cons]
      exact hzip.cons (x, a)
  | swap x y l =>
    intro p hp
    cases p with
    | nil => simp at hp
    | cons a pt =>
      cases pt with
      | nil => simp at hp
      | cons b pt2 =>
        refine ⟨b :: a :: pt2, List.Perm.swap a b pt2, ?_⟩
        rw [List.zip_cons_cons, List.zip_cons_cons, List.zip_cons_cons,
          List.zip_cons_cons]
        exact List.Perm.swap (y, a) (x, b) (l.zip pt2)
  | trans h1 h2 ih1 ih2 =>
    intro p hp
    obtain ⟨p1, hp1, hz1⟩ := ih1 p hp
    obtain ⟨p2, hp2, hz2⟩ := ih2 p1 (by rw [hp1.length_eq, hp, h1.length_eq])
    exact ⟨p2, hp2.trans hp1, hz2.trans hz1⟩

/-- The pairing cost depends only on the multiset of matched pairs. -/
theorem assignCost_congr {xs ys xs2 ys2 : List Point}
    (h : (xs2.zip ys2).Perm (xs.zip ys)) :
    assignCost xs2 ys2 = assignCost xs ys := by
  unfold assignCost
  exact List.Perm.sum_eq (h.map fun pq => sqDist pq.1 pq.2)

/-- Equal finsets have equal minima. -/
theorem finsetMin_congr {s t : Finset ℚ} (h : s = t) (hs : s.Nonempty)
    (ht : t.Nonempty) : s.min' hs = t.min' ht := by
  subst h
  rfl

/-- The minimum assignment cost depends only on the multisets of the two
point lists (for equal-length lists). -/
theorem minAssignCost_congr {xs xs2 ys ys2 : List Point}
    (hx : xs.Perm xs2) (hy : ys.Perm ys2) (hlen : ys.length = xs.length) :
    minAssignCost xs2 ys2 = minAssignCost xs ys := by
  have hset : (costChoices xs2 ys2).toFinset = (costChoices xs ys).toFinset := by
    ext q
    simp only [List.mem_toFinset, costChoices, List.mem_map,
      List.mem_permutations]
    constructor
    · rintro ⟨p, hp, rfl⟩
      have hlp : p.length = xs2.length := by
        rw [hp.length_eq, ← hy.length_eq, hlen, hx.length_eq]
      obtain ⟨p2, hp2, hz⟩ := zip_perm_transport hx.symm p hlp
      exact ⟨p2, hp2.trans (hp.trans hy.symm), assignCost_congr hz⟩
    · rintro ⟨p, hp, rfl⟩
      have hlp : p.length = xs.length := by rw [hp.length_eq, hlen]
      obtain ⟨p2, hp2, hz⟩ := zip_perm_transport hx p hlp
      exact ⟨p2, hp2.trans (hp.trans hy), assignCost_congr hz⟩
  unfold minAssignCost
  exact finsetMin_congr hset _ _

/-- Squared distance from a point to itself is zero. -/
theorem sqDist_self (p : Point) : sqDist p p = 0 := by
  simp [sqDist]

/-- Squared distances are nonnegative. -/
theorem sqDist_nonneg (p q : Point) : 0 ≤ sqDist p q := by
  unfold sqDist
  have h1 := mul_self_nonneg (p.1 - q.1)
  have h2 := mul_self_nonneg (p.2.1 - q.2.1)
  have h3 := mul_self_nonneg (p.2.2 - q.2.2)
  linarith

/-- Zipping a list with itself pairs each element with itself. -/
theorem mem_zip_same {xs : List Point} {pq : Point × Point}
    (h : pq ∈ xs.zip xs) : pq.1 = pq.2 := by
  induction xs with
  | nil => cases h
  | cons a t ih =>
    rw [List.zip_cons_cons] at h
    rcases List.mem_cons.mp h with rfl | h
    · rfl
    · exact ih h

/-- The identity pairing of a list against itself costs zero. -/
theorem assignCost_self (xs : List Point) : assignCost xs xs = 0 := by
  unfold assignCost
  apply List.sum_eq_zero
  intro x hx
  obtain ⟨pq, hpq, rfl⟩ := List.mem_map.mp hx
  rw [mem_zip_same hpq]
  exact sqDist_self _

/-- All pairing costs are nonnegative. -/
theorem assignCost_nonneg (xs ys : List Point) : 0 ≤ assignCost xs ys := by
  unfold assignCost
  apply List.sum_nonneg
  intro x hx
  obtain ⟨pq, _, rfl⟩ := List.mem_map.mp hx
  exact sqDist_nonneg _ _

/-- The minimum assignment cost of a list against itself is zero. -/
theorem minAssignCost_self (xs : List Point) : minAssignCost xs xs = 0 := by
  unfold minAssignCost
  apply le_antisymm
  · apply Finset.min'_le
    rw [List.mem_toFinset]
    unfold costChoices
    rw [List.mem_map]
    exact ⟨xs, List.mem_permutations.mpr (List.Perm.refl xs), assignCost_self xs⟩
  · apply Finset.le_min'
    intro y hy
    rw [List.mem_toFinset] at hy
    unfold costChoices at hy
    obtain ⟨p, _, rfl⟩ := List.mem_map.mp hy
    exact assignCost_nonneg xs p

/-- Permuting atoms (with their channels) permutes each per-channel point
selection. -/
theorem channelPoints_perm {xyz xyz2 : List Point} {c : List ℕ}
    (h : (xyz2.zip c).Perm (xyz.zip c)) (ch : ℕ) :
    (channelPoints xyz2 c ch).Perm (channelPoints xyz c ch) := by
  unfold channelPoints
  exact (h.filter _).map _

/-- The per-channel point selection has the channel's count as length. -/
theorem channelPoints_length {xyz : List Point} {c : List ℕ}
    (hlen : xyz.length = c.length) (ch : ℕ) :
    (channelPoints xyz c ch).length = c.count ch := by
  unfold channelPoints
  rw [List.length_map]
  induction xyz generalizing c with
  | nil =>
    cases c with
    | nil => rfl
    | cons d e => simp at hlen
  | cons a t ih =>
    cases c with
    | nil => simp at hlen
    | cons d e =>
      have hlen' : t.length = e.length := by simpa using hlen
      by_cases hd : d = ch
      · subst hd
        simp [List.zip_cons_cons, List.filter_cons, List.count_cons, ih hlen']
      · simp [List.zip_cons_cons, List.filter_cons, List.count_cons, hd,
          ih hlen']

/-- The summed per-channel minimum assignment cost is invariant under
permuting atoms (with their channels) within either labeled point set. -/
theorem ssdTotal_congr (xyz1 : List Point) (c1 : List ℕ) (xyz2 : List Point)
    (c2 : List ℕ) (xyz1' xyz2' : List Point)
    (hl1 : xyz1.length = c1.length) (hl2 : xyz2.length = c2.length)
    (hcnt : ∀ ch, c1.count ch = c2.count ch)
    (h1 : (xyz1'.zip c1).Perm (xyz1.zip c1))
    (h2 : (xyz2'.zip c2).Perm (xyz2.zip c2)) :
    ssdTotal xyz1' c1 xyz2' c2 = ssdTotal xyz1 c1 xyz2 c2 := by
  unfold ssdTotal
  congr 1
  apply List.map_congr_left
  intro ch _
  apply minAssignCost_congr (channelPoints_perm h1 ch).symm
    (channelPoints_perm h2 ch).symm
  rw [channelPoints_length hl2 ch, channelPoints_length hl1 ch]
  exact (hcnt ch).symm

/-- C9 (amended): for compatible labeled point sets (equal total count and
equal per-channel histograms), the value of `get_min_rmsd` is invariant under
permuting same-channel points (formalized: permuting (point, channel) pairs
while keeping the channel vector fixed) within either input; and for two
identical NONEMPTY labeled point sets it returns 0.  (For two identical
EMPTY sets the source instead raises a zero-division error; see the
counterexample.) -/
theorem c9_rmsd_properties :
    (∀ (xyz1 : List Point) (c1 : List ℕ) (xyz2 : List Point) (c2 : List ℕ)
        (xyz1' xyz2' : List Point),
      xyz1.length = c1.length → xyz2.length = c2.length →
      (∀ ch, c1.count ch = c2.count ch) →
      (xyz1'.zip c1).Perm (xyz1.zip c1) → (xyz2'.zip c2).Perm (xyz2.zip c2) →
      getMinRmsdSq xyz1' c1 xyz2' c2 = getMinRmsdSq xyz1 c1 xyz2 c2)
    ∧ ∀ (xyz : List Point) (c : List ℕ), c ≠ [] →
        getMinRmsdSq xyz c xyz c = .ok 0 := by
  constructor
  · intro xyz1 c1 xyz2 c2 xyz1' xyz2' hl1 hl2 hcnt h1 h2
    unfold getMinRmsdSq
    by_cases hA : c1.length ≠ c2.length
    · rw [if_pos hA, if_pos hA]
    · rw [if_neg hA, if_neg hA]
      by_cases hB : sortNat c1 ≠ sortNat c2
      · rw [if_pos hB, if_pos hB]
      · rw [if_neg hB, if_neg hB]
        by_cases hC : c1.length = 0
        · rw [if_pos hC, if_pos hC]
        · rw [if_neg hC, if_neg hC]
          rw [ssdTotal_congr xyz1 c1 xyz2 c2 xyz1' xyz2' hl1 hl2 hcnt h1 h2]
  · intro xyz c hc
    unfold getMinRmsdSq
    rw [if_neg (fun h => h rfl), if_neg (fun h => h rfl),
      if_neg (fun h => hc (List.length_eq_zero.mp h))]
    have hz : ssdTotal xyz c xyz c = 0 := by
      unfold ssdTotal
      apply List.sum_eq_zero
      intro x hx
      obtain ⟨ch, _, rfl⟩ := List.mem_map.mp hx
      exact minAssignCost_self _
    rw [hz, zero_div]

/-- Witness for C9 at concrete two-atom point sets with a same-channel swap
in each input, and a one-atom identical pair. -/
theorem c9_rmsd_properties_witness :
    getMinRmsdSq [(1, 0, 0), (0, 0, 0)] [0, 0] [(3, 0, 0), (2, 0, 0)] [0, 0]
        = getMinRmsdSq [(0, 0, 0), (1, 0, 0)] [0, 0] [(2, 0, 0), (3, 0, 0)] [0, 0]
    ∧ getMinRmsdSq [(0, 0, 0)] [0] [(0, 0, 0)] [0] = .ok 0 :=
  ⟨c9_rmsd_properties.1 [(0, 0, 0), (1, 0, 0)] [0, 0] [(2, 0, 0), (3, 0, 0)]
      [0, 0] [(1, 0, 0), (0, 0, 0)] [(3, 0, 0), (2, 0, 0)] (by decide) (by decide)
      (fun _ => rfl) (by decide) (by decide),
    c9_rmsd_properties.2 [(0, 0, 0)] [0] (by decide)⟩

/-- C9 counterexample: two identical EMPTY labeled point sets do not return
0 — the source raises a zero-division error on them. -/
theorem c9_counterexample :
    getMinRmsdSq [] [] [] [] ≠ Except.ok 0
    ∧ getMinRmsdSq [] [] [] [] = Except.error "float division by zero" := by
  refine ⟨?_, rfl⟩
  intro h
  exact Except.noConfusion h

end LiGAN
